import Mathlib

/-!
Verification development for the document-grounded chat assistant's
retrieval/chunking/citation core.

The definitions below are shallow embeddings of the repository's code:

* the streaming chunker `processChunksStreaming` and its helpers
  (`calculatePageNumber`, sentence-boundary cut selection, stall guard),
  from the ingestion script;
* the page-grouping estimator `chunksByPage` and the page-navigation
  handlers `handleNextPage` / `handlePreviousPage`, from `SourceViewer.tsx`;
* the citation-marker renderer and the click/hover reference handlers,
  from `Message.tsx`.

Strings are modelled as `List Char`; JavaScript's `-1`-returning
`lastIndexOf` is modelled with `Int`.  JavaScript float arithmetic in page
formulas (`Math.floor((a / b) * c)`) is modelled by exact natural-number
arithmetic (`a * c / b`); `chunkSize * 0.5` is the exact value `1000`.
Whitespace (for `trim` and `\s`) is modelled by `Char.isWhitespace`
(space, tab, CR, LF), which covers every whitespace character appearing
in the texts this program handles.
-/

namespace Chat6v

/-- Chunking constants from the ingestion script (`chunkSize = 2000`). -/
def chunkSize : Nat := 2000

/-- Chunking constants from the ingestion script (`overlap = 200`). -/
def overlap : Nat := 200

/-- JavaScript `String.prototype.lastIndexOf` for a single character:
index of the last occurrence, or `-1` if absent. -/
def lastIndexOf : List Char → Char → Int
  | [], _ => -1
  | c :: cs, ch =>
    let r := lastIndexOf cs ch
    if r ≥ 0 then r + 1 else if c = ch then 0 else -1

/-- JavaScript `String.prototype.trim`: drop whitespace from both ends. -/
def trim (l : List Char) : List Char :=
  ((l.dropWhile Char.isWhitespace).reverse.dropWhile Char.isWhitespace).reverse

/-- `calculatePageNumber(textPosition, totalTextLength, totalPages)` from the
ingestion script: position-proportional 1-based page, clamped to
`totalPages`; `1` when either argument is zero. -/
def calculatePageNumber (textPosition totalTextLength totalPages : Nat) : Nat :=
  if totalPages = 0 ∨ totalTextLength = 0 then 1
  else min (textPosition * totalPages / totalTextLength + 1) totalPages

/-- One produced chunk record (the fields of `chunkData` that the verified
properties concern; `keywords`/`searchableText`/timestamps are omitted as no
claim mentions them). -/
structure ChunkRec where
  position : Nat
  startPos : Nat
  endPos : Nat
  originalSize : Nat
  content : List Char
  page : Nat
deriving DecidableEq, Repr

/-- `end = Math.min(position + chunkSize, text.length)` — the raw window end. -/
def windowEnd (text : List Char) (pos : Nat) : Nat :=
  min (pos + chunkSize) text.length

/-- `text.slice(position, end)` — the raw window. -/
def windowOf (text : List Char) (pos : Nat) : List Char :=
  (text.drop pos).take (windowEnd text pos - pos)

/-- `Math.max(lastSentenceEnd, lastNewline, lastSpace)` over the window:
the latest `'.'`, `'\n'` or `' '` (window-relative index, `-1` if none). -/
def cutPointOf (w : List Char) : Int :=
  max (max (lastIndexOf w '.') (lastIndexOf w '\n')) (lastIndexOf w ' ')

/-- The chunk slice taken for the window at `pos`: for a non-final window,
`chunk.slice(0, cutPoint + 1)` when `cutPoint > position + chunkSize * 0.5`,
otherwise the hard-cut window itself.  Note the source compares the
window-relative `cutPoint` against the absolute `position + 1000`. -/
def chunkSliceOf (text : List Char) (pos : Nat) : List Char :=
  if windowEnd text pos < text.length then
    if cutPointOf (windowOf text pos) > (pos : Int) + (chunkSize : Int) / 2 then
      (windowOf text pos).take (cutPointOf (windowOf text pos) + 1).toNat
    else windowOf text pos
  else windowOf text pos

/-- The chunk record pushed for the window at `pos` (index `idx`):
`content` is the trimmed slice, while `startPos`/`endPos`/`originalSize`
use the untrimmed slice length; `page` is position-proportional when
`totalPages > 0` and the default `1` otherwise. -/
def chunkRecOf (text : List Char) (totalPages : Nat) (pos idx : Nat) : ChunkRec :=
  let chunk := chunkSliceOf text pos
  { position := idx
    startPos := pos
    endPos := pos + chunk.length
    originalSize := chunk.length
    content := trim chunk
    page := if totalPages > 0 then calculatePageNumber pos text.length totalPages else 1 }

/-- `position` update at the end of an iteration: `text.length` when the raw
window reached the end, else `end - overlap` (the clamp to `0` can never
fire since `end = position + chunkSize ≥ 2000 > 200` in that branch). -/
def nextPosition (text : List Char) (pos : Nat) : Nat :=
  if windowEnd text pos ≥ text.length then text.length
  else windowEnd text pos - overlap

/-- The `while (position < text.length)` loop of `processChunksStreaming`,
with the stall guard (`lastPosition`, `stuckCount`): if the position has not
moved for more than 3 consecutive checks the loop breaks; otherwise one
chunk record is produced per iteration.  The loop is driven by structural
`fuel` so that it computes by kernel reduction; since `position` strictly
increases each iteration, `text.length + 1` units of fuel make the fuel
bound unreachable (`chunkLoop_fuel_irrel` below). -/
def chunkLoop (text : List Char) (totalPages : Nat) :
    Nat → Nat → Nat → Int → Nat → List ChunkRec
  | 0, _, _, _, _ => []
  | fuel + 1, pos, idx, lastPosition, stuckCount =>
    if pos < text.length then
      if (pos : Int) = lastPosition ∧ stuckCount + 1 > 3 then []
      else
        chunkRecOf text totalPages pos idx ::
          chunkLoop text totalPages fuel (nextPosition text pos) (idx + 1)
            (if (pos : Int) = lastPosition then lastPosition else (pos : Int))
            (if (pos : Int) = lastPosition then stuckCount + 1 else 0)
    else []

/-- `processChunksStreaming(documentId, filename, text, totalPages)`,
restricted to the list of chunk records it produces (persistence and
logging are I/O). -/
def processChunksStreaming (text : List Char) (totalPages : Nat) : List ChunkRec :=
  chunkLoop text totalPages (text.length + 1) 0 0 (-1) 0

/-! Embedding of the citation-marker resolver (`Message.tsx`).
`ChunkRef` models the runtime shape of a `chunkReferences` entry: the
declared interface carries `chunkId`/`documentId`/`documentTitle`, but the
click handler also probes the alternate field names `id`, `chunk_id` and
`title` that other pipeline stages may produce, so those are modelled as
fields too (empty string models a missing/empty field, mirroring JS string
falsiness).  `page = 0` models an absent page. -/

/-- JavaScript `a || b` on strings: the empty string is falsy. -/
def jsOr (a b : String) : String :=
  if a = "" then b else a

/-- Runtime shape of one entry of a message's `chunkReferences` list. -/
structure ChunkRef where
  chunkId : String := ""
  documentId : String := ""
  documentTitle : String := ""
  id : String := ""
  chunk_id : String := ""
  title : String := ""
  page : Nat := 0
  metaPage : Nat := 0
  content : List Char := []
deriving DecidableEq, Repr

/-- The payload of the `referenceClick` custom event. -/
structure NavEvent where
  documentId : String
  chunkId : String
  title : String
  page : Nat
deriving DecidableEq, Repr

/-- `const documentId = chunk.documentId || chunk.id || ''`. -/
def extractDocumentId (c : ChunkRef) : String :=
  jsOr (jsOr c.documentId c.id) ""

/-- `const chunkId = chunk.chunkId || chunk.chunk_id || ''`. -/
def extractChunkId (c : ChunkRef) : String :=
  jsOr (jsOr c.chunkId c.chunk_id) ""

/-- `const title = chunk.documentTitle || chunk.title || ''`. -/
def extractTitle (c : ChunkRef) : String :=
  jsOr (jsOr c.documentTitle c.title) ""

/-- `const page = chunk.page || chunk.metadata?.page` (0 models absent). -/
def extractPage (c : ChunkRef) : Nat :=
  if c.page ≠ 0 then c.page else c.metaPage

/-- The validity check and event dispatch of `handleReferenceClick`: extract
the ids with their field-name fallbacks; if either `documentId` or `chunkId`
is empty, return without firing; otherwise fire the `referenceClick` event. -/
def clickEventOf (c : ChunkRef) : Option NavEvent :=
  if extractDocumentId c = "" ∨ extractChunkId c = "" then none
  else some { documentId := extractDocumentId c, chunkId := extractChunkId c,
              title := extractTitle c, page := extractPage c }

/-- The common index step of both handlers: `chunkIndex = referenceNumber - 1`
accepted iff `chunkIndex >= 0 && chunkIndex < chunkReferences.length`
(so iff `1 ≤ n` and `n - 1 < length`). -/
def resolveReference (R : List ChunkRef) (n : Nat) : Option ChunkRef :=
  if h : 1 ≤ n ∧ n - 1 < R.length then some (R.get ⟨n - 1, h.2⟩) else none

/-- `handleReferenceClick(referenceNumber)`: `none` models "no navigation
event fired".  `refs = none` models an absent `chunkReferences` field. -/
def handleReferenceClick (refs : Option (List ChunkRef)) (n : Nat) : Option NavEvent :=
  match refs with
  | none => none
  | some R =>
    if R.length > 0 then
      match resolveReference R n with
      | some c => clickEventOf c
      | none => none
    else none

/-- `handleReferenceHover(referenceNumber, show, key)` on the `show` path:
returns the chunk whose title/content the tooltip will display (the HTML
truncation and keyword highlighting are presentation, not modelled). -/
def handleReferenceHover (refs : Option (List ChunkRef)) (n : Nat) : Option ChunkRef :=
  match refs with
  | none => none
  | some R =>
    if R.length = 0 then none
    else resolveReference R n

/-- The recognition test `/^(\d+\s*)+\d*$/.test(text)` applied to the
already-trimmed text: on a trimmed string the regex accepts exactly the
nonempty strings consisting only of digits and whitespace (the first and
last characters of a trimmed string are never whitespace, hence are
digits). -/
def isNumberSequence (t : List Char) : Bool :=
  decide (t ≠ []) && t.all (fun c => c.isDigit || c.isWhitespace)

/-- `parseInt` on a pure digit run. -/
def natFromDigits (t : List Char) : Nat :=
  t.foldl (fun a c => a * 10 + (c.toNat - 48)) 0

/-- Accumulator pass for `splitWs`: `acc` holds the current run, reversed. -/
def splitWsAux : List Char → List Char → List (List Char)
  | [], acc => if acc.isEmpty then [] else [acc.reverse]
  | c :: cs, acc =>
    if c.isWhitespace then
      if acc.isEmpty then splitWsAux cs [] else acc.reverse :: splitWsAux cs []
    else splitWsAux cs (c :: acc)

/-- `text.split(/\s+/)` on trimmed digits-and-whitespace text: the maximal
runs of non-whitespace characters, in order. -/
def splitWs (l : List Char) : List (List Char) :=
  splitWsAux l []

/-- `text.split(/\s+/).map(n => parseInt(n.trim()))`. -/
def parseNumbers (t : List Char) : List Nat :=
  (splitWs t).map natFromDigits

/-- Result of the custom `strong` renderer: either plain bold text or a row
of numbered reference buttons. -/
inductive StrongRender where
  | plain : StrongRender
  | buttons : List Nat → StrongRender
deriving DecidableEq, Repr

/-- The custom `strong` renderer of `Message.tsx`: trim the bold text; if it
is a digits-and-whitespace sequence and the message has a `chunkReferences`
field (even an empty list is truthy), render one button per parsed number;
otherwise render plain bold text. -/
def strongRenderer (raw : List Char) (refs : Option (List ChunkRef)) : StrongRender :=
  if isNumberSequence (trim raw) ∧ refs.isSome then
    StrongRender.buttons (parseNumbers (trim raw))
  else StrongRender.plain

/-- Sample reference entries for concrete instantiations. -/
def sampleRefA : ChunkRef :=
  { chunkId := "chunk-a", documentId := "doc-a", documentTitle := "Doc A",
    page := 2, content := ['A'] }

/-- Second sample reference entry. -/
def sampleRefB : ChunkRef :=
  { chunkId := "chunk-b", documentId := "doc-b", documentTitle := "Doc B",
    page := 7, content := ['B'] }

/-- A reference whose declared `documentId` is empty but which carries its
document id under the alternate field name `id`. -/
def refEmptyDoc : ChunkRef :=
  { chunkId := "chunk-1", documentId := "", id := "doc-1",
    documentTitle := "T", page := 3 }

/-! Embedding of the page-grouping estimator and page navigation
(`SourceViewer.tsx`). -/

/-- The fields of a stored chunk that the page grouping consults
(`metadata.page`, with 0 modelling absent/zero). -/
structure PDFChunk where
  id : String := ""
  content : List Char := []
  page : Nat := 0
deriving DecidableEq, Repr

/-- `chunks.length > 0 && chunks.every(c => !c.metadata?.page || c.metadata.page === 0)`. -/
def allPagesZero (chunks : List PDFChunk) : Bool :=
  decide (0 < chunks.length) && chunks.all (fun c => c.page == 0)

/-- The page number `chunksByPage` computes for the chunk at storage index
`index`: when every page is zero/absent, an even split over
`documentTotalPages` if known, else three chunks per page; otherwise the
chunk's own page. -/
def assignedPage (chunks : List PDFChunk) (dtp index : Nat) (c : PDFChunk) : Nat :=
  if allPagesZero chunks then
    if dtp > 0 then min (index * dtp / chunks.length + 1) dtp
    else index / 3 + 1
  else c.page

/-- The `chunksByPage` grouping: bucket `p` holds, in storage order, the
chunks whose assigned page is `p` (the `forEach` pushes each chunk onto
exactly the bucket keyed by its `pageNum`). -/
def chunksByPage (chunks : List PDFChunk) (dtp p : Nat) : List PDFChunk :=
  ((chunks.enum).filter (fun ic => assignedPage chunks dtp ic.1 ic.2 == p)).map
    Prod.snd

/-- The largest bucket key (`Math.max(...pages)`, 0 when there are none). -/
def maxAssignedPage (chunks : List PDFChunk) (dtp : Nat) : Nat :=
  ((chunks.enum).map (fun ic => assignedPage chunks dtp ic.1 ic.2)).foldr max 0

/-- The component's `totalPages`:
`documentTotalPages > 0 ? documentTotalPages : (maxPdfPage || pdfPageNumbers.length)`,
with `maxPdfPage` modelled at its settled value, the largest bucket key
(when there are no buckets both fallbacks are 0). -/
def totalPagesOf (chunks : List PDFChunk) (dtp : Nat) : Nat :=
  if dtp > 0 then dtp else maxAssignedPage chunks dtp

/-- Travel direction of a page navigation. -/
inductive NavDirection where
  | prev : NavDirection
  | next : NavDirection
deriving DecidableEq, Repr

/-- `findNearestPageWithChunks(startPage, direction)`: `startPage` itself if
it owns chunks; otherwise scan outward (up to `totalPages` for `next`, down
to 1 for `prev`) for the first page owning chunks; fall back to `startPage`. -/
def findNearestPageWithChunks (chunks : List PDFChunk) (dtp startPage : Nat)
    (dir : NavDirection) : Nat :=
  if (chunksByPage chunks dtp startPage).length > 0 then startPage
  else
    match dir with
    | NavDirection.next =>
      match (List.range' (startPage + 1) (totalPagesOf chunks dtp - startPage)).find?
          (fun p => 0 < (chunksByPage chunks dtp p).length) with
      | some p => p
      | none => startPage
    | NavDirection.prev =>
      match ((List.range' 1 (startPage - 1)).reverse).find?
          (fun p => 0 < (chunksByPage chunks dtp p).length) with
      | some p => p
      | none => startPage

/-- `handleNextPage`: request `min(totalPages, current + 1)`, resolve it
through `findNearestPageWithChunks`, and fire `onPdfPageChange(target)`
unless the target equals the current page.  `none` models "no page-change
event fired". -/
def handleNextPage (chunks : List PDFChunk) (dtp currentPage : Nat) : Option Nat :=
  let requested := min (totalPagesOf chunks dtp) (currentPage + 1)
  let target := findNearestPageWithChunks chunks dtp requested NavDirection.next
  if target = currentPage then none else some target

/-- `handlePreviousPage`: request `max(1, current - 1)` and resolve downward. -/
def handlePreviousPage (chunks : List PDFChunk) (dtp currentPage : Nat) : Option Nat :=
  let requested := max 1 (currentPage - 1)
  let target := findNearestPageWithChunks chunks dtp requested NavDirection.prev
  if target = currentPage then none else some target

/-- A chunk stored on page 1, for concrete navigation scenarios. -/
def navChunk1 : PDFChunk :=
  { id := "c1", content := ['x'], page := 1 }

/-- Ten chunks with page 0, for the estimator scenario. -/
def chunks10 : List PDFChunk :=
  List.replicate 10 ({ id := "z" } : PDFChunk)

theorem nextPosition_gt (text : List Char) (pos : Nat) (h : pos < text.length) :
    pos < nextPosition text pos := by
  simp only [nextPosition, windowEnd, chunkSize, overlap, Nat.min_def]
  split <;> split <;> omega

/-! Concrete texts used to exercise the chunker on a full-size window.
`T0` has its only cut character (a space) at index 1000 of the first window;
`T1` has it at index 1500. -/

/-- A 2001-character text: 1000 `'a'`s, a space, then 1000 `'a'`s. -/
def T0 : List Char := List.replicate 1000 'a' ++ ' ' :: List.replicate 1000 'a'

/-- A 2001-character text: 1500 `'a'`s, a space, then 500 `'a'`s. -/
def T1 : List Char := List.replicate 1500 'a' ++ ' ' :: List.replicate 500 'a'

/-- With fuel exceeding `text.length - pos` the fuel bound is unreachable:
any two such fuel values give the same run. -/
theorem chunkLoop_fuel_irrel (text : List Char) (totalPages : Nat)
    (fuel fuel' pos idx : Nat) (lastPosition : Int) (stuckCount : Nat)
    (h : text.length - pos < fuel) (h' : text.length - pos < fuel') :
    chunkLoop text totalPages fuel pos idx lastPosition stuckCount =
      chunkLoop text totalPages fuel' pos idx lastPosition stuckCount := by
  induction fuel generalizing fuel' pos idx lastPosition stuckCount with
  | zero => omega
  | succ n ih =>
    cases fuel' with
    | zero => omega
    | succ m =>
      simp only [chunkLoop]
      by_cases hp : pos < text.length
      · have hnext := nextPosition_gt text pos hp
        simp only [hp, if_true]
        split
        · rfl
        · rw [ih m (nextPosition text pos) (idx + 1) _ _ (by omega) (by omega)]
      · simp [hp]

/-- One-step unfolding of the loop, stated for any sufficient fuel. -/
theorem chunkLoop_step (text : List Char) (totalPages fuel pos idx : Nat)
    (lastPosition : Int) (stuckCount : Nat) (h : text.length - pos < fuel) :
    chunkLoop text totalPages fuel pos idx lastPosition stuckCount =
      if pos < text.length then
        if (pos : Int) = lastPosition ∧ stuckCount + 1 > 3 then []
        else
          chunkRecOf text totalPages pos idx ::
            chunkLoop text totalPages fuel (nextPosition text pos) (idx + 1)
              (if (pos : Int) = lastPosition then lastPosition else (pos : Int))
              (if (pos : Int) = lastPosition then stuckCount + 1 else 0)
      else [] := by
  cases fuel with
  | zero => omega
  | succ n =>
    show (if pos < text.length then _ else _) = _
    by_cases hp : pos < text.length
    · have hnext := nextPosition_gt text pos hp
      simp only [hp, if_true]
      split
      · rfl
      · rw [chunkLoop_fuel_irrel text totalPages n (n + 1) (nextPosition text pos)
            (idx + 1) _ _ (by omega) (by omega)]
    · simp [hp]

@[simp] theorem chunkRecOf_position (text : List Char) (tp pos idx : Nat) :
    (chunkRecOf text tp pos idx).position = idx := rfl

@[simp] theorem chunkRecOf_startPos (text : List Char) (tp pos idx : Nat) :
    (chunkRecOf text tp pos idx).startPos = pos := rfl

@[simp] theorem chunkRecOf_endPos (text : List Char) (tp pos idx : Nat) :
    (chunkRecOf text tp pos idx).endPos = pos + (chunkSliceOf text pos).length := rfl

@[simp] theorem chunkRecOf_originalSize (text : List Char) (tp pos idx : Nat) :
    (chunkRecOf text tp pos idx).originalSize = (chunkSliceOf text pos).length := rfl

@[simp] theorem chunkRecOf_content (text : List Char) (tp pos idx : Nat) :
    (chunkRecOf text tp pos idx).content = trim (chunkSliceOf text pos) := rfl

@[simp] theorem chunkRecOf_page (text : List Char) (tp pos idx : Nat) :
    (chunkRecOf text tp pos idx).page =
      if tp > 0 then calculatePageNumber pos text.length tp else 1 := rfl

theorem lastIndexOf_ge_neg_one (l : List Char) (ch : Char) : -1 ≤ lastIndexOf l ch := by
  induction l with
  | nil => simp [lastIndexOf]
  | cons c cs ih =>
    simp only [lastIndexOf]
    split
    · omega
    · split <;> omega

theorem lastIndexOf_lt_length (l : List Char) (ch : Char) :
    lastIndexOf l ch < (l.length : Int) := by
  induction l with
  | nil => simp [lastIndexOf]
  | cons c cs ih =>
    simp only [lastIndexOf, List.length_cons]
    split
    · push_cast; omega
    · split <;> (push_cast; omega)

theorem lastIndexOf_of_not_mem {l : List Char} {ch : Char} (h : ch ∉ l) :
    lastIndexOf l ch = -1 := by
  induction l with
  | nil => rfl
  | cons c cs ih =>
    simp only [List.mem_cons, not_or] at h
    simp only [lastIndexOf, ih h.2]
    simp [Ne.symm h.1]

theorem lastIndexOf_nonneg_of_mem {l : List Char} {ch : Char} (h : ch ∈ l) :
    0 ≤ lastIndexOf l ch := by
  induction l with
  | nil => simp at h
  | cons c cs ih =>
    simp only [lastIndexOf]
    rcases List.mem_cons.mp h with h1 | h2
    · split
      · omega
      · simp [h1]
    · have := ih h2
      split
      · omega
      · omega

theorem lastIndexOf_append_of_not_mem_right {l₂ : List Char} {ch : Char}
    (l₁ : List Char) (h : ch ∉ l₂) :
    lastIndexOf (l₁ ++ l₂) ch = lastIndexOf l₁ ch := by
  induction l₁ with
  | nil => simpa using lastIndexOf_of_not_mem h
  | cons c cs ih => simp only [List.cons_append, lastIndexOf, List.append_eq, ih]

theorem lastIndexOf_append_of_mem_right {l₂ : List Char} {ch : Char}
    (l₁ : List Char) (h : ch ∈ l₂) :
    lastIndexOf (l₁ ++ l₂) ch = (l₁.length : Int) + lastIndexOf l₂ ch := by
  induction l₁ with
  | nil => simp
  | cons c cs ih =>
    have hnn : 0 ≤ lastIndexOf l₂ ch := lastIndexOf_nonneg_of_mem h
    simp only [List.cons_append, lastIndexOf, List.append_eq, ih, List.length_cons]
    rw [if_pos (by omega)]
    push_cast
    omega

theorem lastIndexOf_replicate_of_ne {a ch : Char} (n : Nat) (h : ch ≠ a) :
    lastIndexOf (List.replicate n a) ch = -1 :=
  lastIndexOf_of_not_mem (by simp [List.mem_replicate]; tauto)

theorem windowOf_length (text : List Char) (pos : Nat) (h : pos ≤ text.length) :
    (windowOf text pos).length = windowEnd text pos - pos := by
  have h1 : windowEnd text pos ≤ text.length := Nat.min_le_right _ _
  simp only [windowOf, List.length_take, List.length_drop]
  omega

theorem trim_length_le (l : List Char) : (trim l).length ≤ l.length := by
  simp only [trim, List.length_reverse]
  calc ((l.dropWhile Char.isWhitespace).reverse.dropWhile Char.isWhitespace).length
      ≤ (l.dropWhile Char.isWhitespace).reverse.length :=
        (List.dropWhile_sublist _).length_le
    _ = (l.dropWhile Char.isWhitespace).length := List.length_reverse _
    _ ≤ l.length := (List.dropWhile_sublist _).length_le

theorem cutPointOf_lt_length (w : List Char) : cutPointOf w < (w.length : Int) := by
  have h1 := lastIndexOf_lt_length w '.'
  have h2 := lastIndexOf_lt_length w '\n'
  have h3 := lastIndexOf_lt_length w ' '
  simp only [cutPointOf]
  omega

theorem nextPosition_of_lt (text : List Char) (pos : Nat)
    (h : pos + chunkSize < text.length) :
    nextPosition text pos = pos + (chunkSize - overlap) := by
  have hmin : windowEnd text pos = pos + chunkSize := by
    simp only [windowEnd]; omega
  have hov : overlap ≤ chunkSize := by norm_num [chunkSize, overlap]
  simp only [nextPosition, hmin]
  rw [if_neg (by omega)]
  omega

theorem nextPosition_of_ge (text : List Char) (pos : Nat)
    (h : text.length ≤ pos + chunkSize) :
    nextPosition text pos = text.length := by
  have hmin : windowEnd text pos = text.length := by
    simp only [windowEnd]; omega
  simp [nextPosition, hmin]

/-- Definitional unfolding of one loop iteration (fuel decreases by one). -/
theorem chunkLoop_succ_eq (text : List Char) (tp fuel pos idx : Nat)
    (last : Int) (stuck : Nat) :
    chunkLoop text tp (fuel + 1) pos idx last stuck =
      if pos < text.length then
        if (pos : Int) = last ∧ stuck + 1 > 3 then []
        else
          chunkRecOf text tp pos idx ::
            chunkLoop text tp fuel (nextPosition text pos) (idx + 1)
              (if (pos : Int) = last then last else (pos : Int))
              (if (pos : Int) = last then stuck + 1 else 0)
      else [] := rfl

/-- Every record the loop emits is the record of some window that started
strictly inside the text. -/
theorem chunkLoop_shape (text : List Char) (tp : Nat) :
    ∀ (fuel pos idx : Nat) (last : Int) (stuck : Nat),
      ∀ c ∈ chunkLoop text tp fuel pos idx last stuck,
        ∃ p i, p < text.length ∧ c = chunkRecOf text tp p i := by
  intro fuel
  induction fuel with
  | zero => intro pos idx last stuck c hc; simp [chunkLoop] at hc
  | succ n ih =>
    intro pos idx last stuck c hc
    rw [chunkLoop_succ_eq] at hc
    by_cases hp : pos < text.length
    · rw [if_pos hp] at hc
      split at hc
      · simp at hc
      · rcases List.mem_cons.mp hc with h1 | h2
        · exact ⟨pos, idx, hp, h1⟩
        · exact ih _ _ _ _ c h2
    · rw [if_neg hp] at hc
      simp at hc

/-- Raw-window coverage: from any loop state whose `lastPosition` lies
strictly before `position` (true of every reachable state), every text index
at or beyond `position` is inside the raw window of some emitted record. -/
theorem chunkLoop_cover (text : List Char) (tp : Nat) :
    ∀ (fuel pos idx : Nat) (last : Int) (stuck : Nat),
      text.length - pos < fuel → last < (pos : Int) →
      ∀ n, pos ≤ n → n < text.length →
        ∃ c ∈ chunkLoop text tp fuel pos idx last stuck,
          c.startPos ≤ n ∧ n < min (c.startPos + chunkSize) text.length := by
  intro fuel
  induction fuel with
  | zero => omega
  | succ m ih =>
    intro pos idx last stuck hfuel hlast n hpn hn
    have hp : pos < text.length := by omega
    have hnext := nextPosition_gt text pos hp
    have hne : ¬((pos : Int) = last) := by omega
    rw [chunkLoop_succ_eq, if_pos hp, if_neg (by tauto), if_neg hne, if_neg hne]
    by_cases hwin : n < pos + chunkSize
    · exact ⟨chunkRecOf text tp pos idx, List.mem_cons_self _ _,
        by simpa using hpn, by simp; omega⟩
    · have hlt : pos + chunkSize < text.length := by omega
      have hnp : nextPosition text pos = pos + (chunkSize - overlap) :=
        nextPosition_of_lt text pos hlt
      have hov : overlap < chunkSize := by norm_num [chunkSize, overlap]
      obtain ⟨c, hc, hc1, hc2⟩ := ih (nextPosition text pos) (idx + 1) (pos : Int) 0
        (by omega) (by omega) n (by omega) hn
      exact ⟨c, List.mem_cons_of_mem _ hc, hc1, hc2⟩

/-- Iteration bound: the loop emits at most
`⌈(text.length - pos) / (chunkSize - overlap)⌉` records. -/
theorem chunkLoop_length_le (text : List Char) (tp : Nat) :
    ∀ (fuel pos idx : Nat) (last : Int) (stuck : Nat),
      (chunkLoop text tp fuel pos idx last stuck).length ≤
        (text.length - pos + (chunkSize - overlap) - 1) / (chunkSize - overlap) := by
  intro fuel
  induction fuel with
  | zero => intro pos idx last stuck; simp [chunkLoop]
  | succ m ih =>
    intro pos idx last stuck
    rw [chunkLoop_succ_eq]
    by_cases hp : pos < text.length
    · rw [if_pos hp]
      have hnext := nextPosition_gt text pos hp
      have hov : overlap < chunkSize := by norm_num [chunkSize, overlap]
      split
      · simp
      · simp only [List.length_cons]
        by_cases hend : pos + chunkSize < text.length
        · rw [nextPosition_of_lt text pos hend]
          have htail := ih (pos + (chunkSize - overlap)) (idx + 1)
            (if (pos : Int) = last then last else (pos : Int))
            (if (pos : Int) = last then stuck + 1 else 0)
          have harith :
              (text.length - (pos + (chunkSize - overlap)) + (chunkSize - overlap) - 1) /
                  (chunkSize - overlap) + 1 =
                (text.length - pos + (chunkSize - overlap) - 1) / (chunkSize - overlap) := by
            have h1 : text.length - (pos + (chunkSize - overlap)) + (chunkSize - overlap) - 1
                = text.length - pos - 1 := by omega
            have h2 : text.length - pos + (chunkSize - overlap) - 1
                = (text.length - pos - 1) + (chunkSize - overlap) := by omega
            rw [h1, h2, Nat.add_div_right _ (by omega)]
          omega
        · rw [nextPosition_of_ge text pos (by omega)]
          have htail0 : ∀ (idx' : Nat) (last' : Int) (stuck' : Nat),
              (chunkLoop text tp m text.length idx' last' stuck').length = 0 := by
            intro idx' last' stuck'
            cases m with
            | zero => simp [chunkLoop]
            | succ k => rw [chunkLoop_succ_eq, if_neg (by omega)]; rfl
          have hone : 1 ≤ (text.length - pos + (chunkSize - overlap) - 1) /
              (chunkSize - overlap) := by
            rw [Nat.one_le_div_iff (by omega)]
            omega
          have := htail0 (idx + 1) (if (pos : Int) = last then last else (pos : Int))
            (if (pos : Int) = last then stuck + 1 else 0)
          omega
    · rw [if_neg hp]
      simp

theorem T0_length : T0.length = 2001 := by
  rw [T0, List.length_append, List.length_cons, List.length_replicate]

theorem T1_length : T1.length = 2001 := by
  rw [T1, List.length_append, List.length_cons, List.length_replicate,
    List.length_replicate]

theorem windowEnd_T0_0 : windowEnd T0 0 = 2000 := by
  rw [windowEnd, T0_length]
  norm_num [chunkSize]

theorem windowEnd_T1_0 : windowEnd T1 0 = 2000 := by
  rw [windowEnd, T1_length]
  norm_num [chunkSize]

theorem windowOf_T0_0 :
    windowOf T0 0 = List.replicate 1000 'a' ++ ' ' :: List.replicate 999 'a' := by
  rw [windowOf, windowEnd_T0_0, List.drop_zero, Nat.sub_zero, T0,
    List.take_append_eq_append_take, List.length_replicate,
    List.take_of_length_le (by rw [List.length_replicate]; norm_num),
    show (2000 - 1000 : Nat) = 999 + 1 from rfl,
    List.take_succ_cons, List.take_replicate,
    show min 999 1000 = 999 from rfl]

theorem windowOf_T1_0 :
    windowOf T1 0 = List.replicate 1500 'a' ++ ' ' :: List.replicate 499 'a' := by
  rw [windowOf, windowEnd_T1_0, List.drop_zero, Nat.sub_zero, T1,
    List.take_append_eq_append_take, List.length_replicate,
    List.take_of_length_le (by rw [List.length_replicate]; norm_num),
    show (2000 - 1500 : Nat) = 499 + 1 from rfl,
    List.take_succ_cons, List.take_replicate,
    show min 499 500 = 499 from rfl]

theorem lastIndexOf_aSpace (m n : Nat) :
    lastIndexOf (List.replicate m 'a' ++ ' ' :: List.replicate n 'a') ' ' = (m : Int) := by
  rw [lastIndexOf_append_of_mem_right _ (List.mem_cons_self _ _)]
  have h1 : lastIndexOf (List.replicate n 'a') ' ' = -1 :=
    lastIndexOf_replicate_of_ne n (by decide)
  rw [show lastIndexOf (' ' :: List.replicate n 'a') ' '
      = if lastIndexOf (List.replicate n 'a') ' ' >= 0
        then lastIndexOf (List.replicate n 'a') ' ' + 1
        else if ' ' = ' ' then 0 else -1 from rfl, h1]
  norm_num

theorem lastIndexOf_a_none (m n : Nat) (ch : Char) (h1 : ch ≠ 'a') (h2 : ch ≠ ' ') :
    lastIndexOf (List.replicate m 'a' ++ ' ' :: List.replicate n 'a') ch = -1 := by
  apply lastIndexOf_of_not_mem
  simp only [List.mem_append, List.mem_cons, List.mem_replicate]
  tauto

theorem cutPointOf_T0_0 : cutPointOf (windowOf T0 0) = 1000 := by
  rw [cutPointOf, windowOf_T0_0, lastIndexOf_aSpace,
    lastIndexOf_a_none _ _ '.' (by decide) (by decide),
    lastIndexOf_a_none _ _ '\n' (by decide) (by decide)]
  norm_num

theorem cutPointOf_T1_0 : cutPointOf (windowOf T1 0) = 1500 := by
  rw [cutPointOf, windowOf_T1_0, lastIndexOf_aSpace,
    lastIndexOf_a_none _ _ '.' (by decide) (by decide),
    lastIndexOf_a_none _ _ '\n' (by decide) (by decide)]
  norm_num

theorem windowOf_T0_0_length : (windowOf T0 0).length = 2000 := by
  rw [windowOf_length T0 0 (by rw [T0_length]; omega), windowEnd_T0_0]

theorem chunkSliceOf_T0_0 : chunkSliceOf T0 0 = windowOf T0 0 := by
  rw [chunkSliceOf, windowEnd_T0_0, T0_length, if_pos (by norm_num), cutPointOf_T0_0,
    if_neg (by norm_num [chunkSize])]

theorem chunkSliceOf_T0_0_length : (chunkSliceOf T0 0).length = 2000 := by
  rw [chunkSliceOf_T0_0, windowOf_T0_0_length]

theorem chunkSliceOf_T1_0_length : (chunkSliceOf T1 0).length = 1501 := by
  have hwlen : (windowOf T1 0).length = 2000 := by
    rw [windowOf_length T1 0 (by rw [T1_length]; omega), windowEnd_T1_0]
  rw [chunkSliceOf, windowEnd_T1_0, T1_length, if_pos (by norm_num), cutPointOf_T1_0,
    if_pos (by norm_num [chunkSize]), List.length_take, hwlen]
  decide

theorem chunkSliceOf_T1_1800_length : (chunkSliceOf T1 1800).length = 201 := by
  have hwE : windowEnd T1 1800 = 2001 := by
    rw [windowEnd, T1_length]
    norm_num [chunkSize]
  have hwlen : (windowOf T1 1800).length = 201 := by
    rw [windowOf_length T1 1800 (by rw [T1_length]; omega), hwE]
  rw [chunkSliceOf, hwE, T1_length, if_neg (by norm_num), hwlen]

/-- The full run of the chunker on `T1`: exactly two chunks, at window
starts `0` and `1800`. -/
theorem run_T1 :
    processChunksStreaming T1 0 = [chunkRecOf T1 0 0 0, chunkRecOf T1 0 1800 1] := by
  have h1 : nextPosition T1 0 = 1800 := by
    rw [nextPosition_of_lt T1 0 (by rw [T1_length]; norm_num [chunkSize])]
    norm_num [chunkSize, overlap]
  have h2 : nextPosition T1 1800 = 2001 := by
    rw [nextPosition_of_ge T1 1800 (by rw [T1_length]; norm_num [chunkSize]), T1_length]
  rw [processChunksStreaming,
    chunkLoop_step T1 0 (T1.length + 1) 0 0 (-1) 0 (by omega),
    if_pos (by rw [T1_length]; norm_num), if_neg (by norm_num), h1,
    if_neg (by norm_num), if_neg (by norm_num)]
  show chunkRecOf T1 0 0 0 :: chunkLoop T1 0 (T1.length + 1) 1800 1 0 0 = _
  rw [chunkLoop_step T1 0 (T1.length + 1) 1800 1 0 0 (by rw [T1_length]; omega),
    if_pos (by rw [T1_length]; norm_num), if_neg (by norm_num), h2,
    if_neg (by norm_num), if_neg (by norm_num)]
  show chunkRecOf T1 0 0 0 :: chunkRecOf T1 0 1800 1 ::
    chunkLoop T1 0 (T1.length + 1) 2001 2 1800 0 = _
  rw [chunkLoop_step T1 0 (T1.length + 1) 2001 2 1800 0 (by rw [T1_length]; omega),
    if_neg (by rw [T1_length]; norm_num)]

/-- The first chunk the chunker emits on `T0` (membership established by one
unfolding of the loop). -/
theorem mem_run_T0 : chunkRecOf T0 0 0 0 ∈ processChunksStreaming T0 0 := by
  rw [processChunksStreaming,
    chunkLoop_step T0 0 (T0.length + 1) 0 0 (-1) 0 (by omega),
    if_pos (by rw [T0_length]; norm_num), if_neg (by norm_num)]
  exact List.mem_cons_self _ _

/-! Claim theorems about the chunker. -/

/-- Claim C1, counterexample.  The claim states that the produced chunks'
`[startPos, endPos)` ranges cover `[0, len T)` with no gaps and that every
chunk satisfies `content.length = endPos - startPos`.  Both parts fail on
the code: on the two-character text `"a "` the single chunk's content is
whitespace-trimmed (`length 1`) while `endPos - startPos = 2`; and on `T1`
the first chunk is cut at the space (index 1500, so `endPos = 1501`) while
the next chunk starts at `1800`, leaving index `1600` uncovered. -/
theorem c1_counterexample :
    (¬ ∀ c ∈ processChunksStreaming ['a', ' '] 0,
        c.content.length = c.endPos - c.startPos) ∧
    1600 < T1.length ∧
    ¬ ∃ c ∈ processChunksStreaming T1 0, c.startPos ≤ 1600 ∧ 1600 < c.endPos := by
  refine ⟨by decide, by rw [T1_length]; norm_num, ?_⟩
  rw [run_T1]
  rintro ⟨c, hc, h1, h2⟩
  rcases List.mem_cons.mp hc with rfl | hc
  · rw [chunkRecOf_endPos, chunkSliceOf_T1_0_length] at h2
    omega
  · rcases List.mem_cons.mp hc with rfl | hc
    · rw [chunkRecOf_startPos] at h1
      omega
    · simp at hc

/-- Claim C1, amended: the RAW windows `[startPos, min(startPos + C, len T))`
of the produced chunks cover `[0, len T)` with no gaps (the advance rule uses
the raw window end, ignoring any sentence-boundary shortening), and every
chunk satisfies `content.length ≤ endPos - startPos` (the content is the
whitespace-trimmed slice, so equality can fail). -/
theorem c1_amended_thm (T : List Char) (tp : Nat) :
    (∀ n, n < T.length →
      ∃ c ∈ processChunksStreaming T tp,
        c.startPos ≤ n ∧ n < min (c.startPos + chunkSize) T.length) ∧
    (∀ c ∈ processChunksStreaming T tp,
      c.content.length ≤ c.endPos - c.startPos) := by
  constructor
  · intro n hn
    exact chunkLoop_cover T tp (T.length + 1) 0 0 (-1) 0 (by omega) (by norm_num)
      n (Nat.zero_le n) hn
  · intro c hc
    obtain ⟨p, i, hp, rfl⟩ := chunkLoop_shape T tp _ _ _ _ _ c hc
    rw [chunkRecOf_content, chunkRecOf_endPos, chunkRecOf_startPos,
      Nat.add_sub_cancel_left]
    exact trim_length_le (chunkSliceOf T p)

/-- Claim C1, witness for the amended theorem: on the one-character text
`"a"` the (raw-window) coverage property holds at index `0`. -/
theorem c1_witness :
    ∃ c ∈ processChunksStreaming ['a'] 0,
      c.startPos ≤ 0 ∧ 0 < min (c.startPos + chunkSize) (['a'] : List Char).length :=
  (c1_amended_thm ['a'] 0).1 0 (by decide)

/-- Claim C2, counterexample.  The claim states a non-final window's chunk is
shortened to the cut point iff the cut point retains at least 50% of the
window.  On `T0` the first window (non-final: `0 + 2000 < 2001`) has its cut
point at `1000`, which retains 1001 of the 2000 window characters — strictly
more than 50% (`2 * (1000 + 1) > 2000`) — yet the emitted chunk keeps the
hard cut: `endPos - startPos = chunkSize = 2000`, not `1000 + 1 = 1001`.
(The code compares the window-relative cut index against the absolute
threshold `position + chunkSize * 0.5`.) -/
theorem c2_counterexample :
    chunkRecOf T0 0 0 0 ∈ processChunksStreaming T0 0 ∧
    (chunkRecOf T0 0 0 0).startPos + chunkSize < T0.length ∧
    cutPointOf (windowOf T0 ((chunkRecOf T0 0 0 0).startPos)) = 1000 ∧
    (windowOf T0 ((chunkRecOf T0 0 0 0).startPos)).length <
      2 * ((1000 : Int) + 1).toNat ∧
    (chunkRecOf T0 0 0 0).endPos - (chunkRecOf T0 0 0 0).startPos = chunkSize ∧
    chunkSize ≠ ((1000 : Int) + 1).toNat := by
  refine ⟨mem_run_T0, ?_, ?_, ?_, ?_, ?_⟩
  · rw [chunkRecOf_startPos, T0_length]
    norm_num [chunkSize]
  · rw [chunkRecOf_startPos, cutPointOf_T0_0]
  · rw [chunkRecOf_startPos, windowOf_T0_0_length]
    decide
  · rw [chunkRecOf_endPos, chunkRecOf_startPos, Nat.add_sub_cancel_left,
      chunkSliceOf_T0_0_length, chunkSize]
  · rw [chunkSize]
    decide

/-- Claim C2, amended: for every chunk whose window is non-final
(`startPos + C < len T`), the untrimmed chunk span `endPos - startPos`
equals `cutPoint + 1` exactly when the window-relative cut point exceeds the
absolute threshold `startPos + C/2` (so shortening can only ever happen for
windows starting before `C/2`), and equals the hard cut `C` otherwise. -/
theorem c2_amended_thm (T : List Char) (tp : Nat) (c : ChunkRec)
    (hc : c ∈ processChunksStreaming T tp)
    (hnf : c.startPos + chunkSize < T.length) :
    c.endPos - c.startPos =
      if cutPointOf (windowOf T c.startPos) >
          (c.startPos : Int) + (chunkSize : Int) / 2
      then (cutPointOf (windowOf T c.startPos) + 1).toNat
      else chunkSize := by
  obtain ⟨p, i, hp, rfl⟩ := chunkLoop_shape T tp _ _ _ _ _ c hc
  rw [chunkRecOf_startPos] at hnf ⊢
  rw [chunkRecOf_endPos, Nat.add_sub_cancel_left]
  have hwE : windowEnd T p = p + chunkSize := by
    rw [windowEnd]
    omega
  have hwlt : windowEnd T p < T.length := by omega
  have hwlen : (windowOf T p).length = chunkSize := by
    rw [windowOf_length T p (by omega), hwE]
    omega
  have hcp : cutPointOf (windowOf T p) < (chunkSize : Int) := by
    have := cutPointOf_lt_length (windowOf T p)
    rw [hwlen] at this
    exact this
  have hcpl := cutPointOf_lt_length (windowOf T p)
  rw [chunkSliceOf, if_pos hwlt]
  split
  · rw [List.length_take, hwlen]
    omega
  · rw [hwlen]

/-- Claim C2, witness for the amended theorem, instantiated at `T0` and its
first chunk (whose window is non-final). -/
theorem c2_witness :
    (chunkRecOf T0 0 0 0).endPos - (chunkRecOf T0 0 0 0).startPos =
      if cutPointOf (windowOf T0 ((chunkRecOf T0 0 0 0).startPos)) >
          ((chunkRecOf T0 0 0 0).startPos : Int) + (chunkSize : Int) / 2
      then (cutPointOf (windowOf T0 ((chunkRecOf T0 0 0 0).startPos)) + 1).toNat
      else chunkSize :=
  c2_amended_thm T0 0 _ mem_run_T0
    (by rw [chunkRecOf_startPos, T0_length]; norm_num [chunkSize])

/-- Claim C3, counterexample.  The claim states that when the document's
`totalPages` is 0 the chunk's page is left unset/zero; the code instead
stores the default page `1` (`: 1` branch and `calculatePageNumber`'s
zero-guard), as the single chunk of the text `"x"` shows. -/
theorem c3_counterexample :
    ¬ ∀ c ∈ processChunksStreaming ['x'] 0, c.page = 0 := by
  decide

/-- Claim C3, amended: every produced chunk's page is
`min(totalPages, floor(startPos * totalPages / textLength) + 1)` when
`totalPages > 0`, and the DEFAULT `1` (not zero/unset) when `totalPages`
is 0. -/
theorem c3_amended_thm (T : List Char) (tp : Nat) (c : ChunkRec)
    (hc : c ∈ processChunksStreaming T tp) :
    c.page = if tp > 0 then min (c.startPos * tp / T.length + 1) tp else 1 := by
  obtain ⟨p, i, hp, rfl⟩ := chunkLoop_shape T tp _ _ _ _ _ c hc
  rw [chunkRecOf_page, chunkRecOf_startPos]
  by_cases htp : tp > 0
  · rw [if_pos htp, if_pos htp, calculatePageNumber, if_neg (by omega)]
  · rw [if_neg htp, if_neg htp]

/-- Claim C3, witness for the amended theorem: the chunk of the text `"ab"`
ingested with `totalPages = 5` gets page `min(0 * 5 / 2 + 1, 5) = 1`. -/
theorem c3_witness :
    (chunkRecOf ['a', 'b'] 5 0 0).page =
      if 5 > 0
      then min ((chunkRecOf ['a', 'b'] 5 0 0).startPos * 5 /
        (['a', 'b'] : List Char).length + 1) 5
      else 1 :=
  c3_amended_thm ['a', 'b'] 5 _ (by decide)

/-- Claim C9: chunking any text terminates (the embedding is a total
function) with `overlap < chunkSize`, and the loop emits at most
`ceil(len T / (C - O)) = (len T + (C - O) - 1) / (C - O)` chunks, one per
iteration. -/
theorem c9_thm (T : List Char) (tp : Nat) :
    overlap < chunkSize ∧
    (processChunksStreaming T tp).length ≤
      (T.length + (chunkSize - overlap) - 1) / (chunkSize - overlap) := by
  refine ⟨by norm_num [chunkSize, overlap], ?_⟩
  have h := chunkLoop_length_le T tp (T.length + 1) 0 0 (-1) 0
  rw [Nat.sub_zero] at h
  exact h

/-! Claim theorems about the citation-marker resolver. -/

/-- Claim C6: for every reference list `R` and every `k` in
`[1, len R]`, the index step of both the click and the hover handler
resolves marker `k` to exactly `R[k-1]`, and the click handler's event (when
it fires) is built from exactly that chunk. -/
theorem c6_thm (R : List ChunkRef) (k : Nat) (h1 : 1 ≤ k) (h2 : k ≤ R.length) :
    ∃ hk : k - 1 < R.length,
      resolveReference R k = some (R.get ⟨k - 1, hk⟩) ∧
      handleReferenceHover (some R) k = some (R.get ⟨k - 1, hk⟩) ∧
      handleReferenceClick (some R) k = clickEventOf (R.get ⟨k - 1, hk⟩) := by
  have hk : k - 1 < R.length := by omega
  have hres : resolveReference R k = some (R.get ⟨k - 1, hk⟩) := by
    rw [resolveReference, dif_pos ⟨h1, hk⟩]
  refine ⟨hk, hres, ?_, ?_⟩
  · show (if R.length = 0 then none else resolveReference R k) = _
    rw [if_neg (by omega), hres]
  · show (if R.length > 0 then
        match resolveReference R k with
        | some c => clickEventOf c
        | none => none
      else none) = _
    rw [if_pos (by omega), hres]

/-- Claim C6, witness: marker `2` of a two-entry reference list resolves to
the second entry. -/
theorem c6_witness :
    ∃ hk : 2 - 1 < ([sampleRefA, sampleRefB] : List ChunkRef).length,
      resolveReference [sampleRefA, sampleRefB] 2 =
        some (([sampleRefA, sampleRefB] : List ChunkRef).get ⟨2 - 1, hk⟩) ∧
      handleReferenceHover (some [sampleRefA, sampleRefB]) 2 =
        some (([sampleRefA, sampleRefB] : List ChunkRef).get ⟨2 - 1, hk⟩) ∧
      handleReferenceClick (some [sampleRefA, sampleRefB]) 2 =
        clickEventOf (([sampleRefA, sampleRefB] : List ChunkRef).get ⟨2 - 1, hk⟩) :=
  c6_thm [sampleRefA, sampleRefB] 2 (by decide) (by decide)

/-- Claim C5, counterexample.  The claim states that an out-of-range
reference number gets NO interactive marker.  In the code the `strong`
renderer emits a button for every number of a qualifying group before any
range check: with a single reference entry, the bold text `"5"` still
renders as the button `5`. -/
theorem c5_counterexample :
    strongRenderer ['5'] (some [sampleRefA]) = StrongRender.buttons [5] ∧
    ([sampleRefA] : List ChunkRef).length < 5 := by
  decide

/-- Claim C5, amended: an out-of-range reference number in a qualifying bold
group IS still rendered as an interactive marker button, but activating it
is silently ignored: the index step resolves no chunk, a click fires no
navigation event, and a hover shows no tooltip (and no error is raised —
every handler is total). -/
theorem c5_amended_thm (refs : List ChunkRef) (n : Nat)
    (hout : n = 0 ∨ refs.length < n) :
    resolveReference refs n = none ∧
    handleReferenceClick (some refs) n = none ∧
    handleReferenceHover (some refs) n = none ∧
    ∀ raw : List Char, isNumberSequence (trim raw) = true →
      strongRenderer raw (some refs) = StrongRender.buttons (parseNumbers (trim raw)) := by
  have hres : resolveReference refs n = none := by
    rw [resolveReference, dif_neg]
    rintro ⟨ha, hb⟩
    omega
  refine ⟨hres, ?_, ?_, ?_⟩
  · show (if refs.length > 0 then
        match resolveReference refs n with
        | some c => clickEventOf c
        | none => none
      else none) = none
    by_cases hl : refs.length > 0
    · rw [if_pos hl, hres]
    · rw [if_neg hl]
  · show (if refs.length = 0 then none else resolveReference refs n) = none
    by_cases hl : refs.length = 0
    · rw [if_pos hl]
    · rw [if_neg hl, hres]
  · intro raw hq
    rw [strongRenderer, if_pos ⟨hq, rfl⟩]

/-- Claim C5, witness for the amended theorem: with an empty reference list,
the bold text `"1"` still renders as a button while its click fires
nothing. -/
theorem c5_witness :
    handleReferenceClick (some ([] : List ChunkRef)) 1 = none ∧
    strongRenderer ['1'] (some ([] : List ChunkRef)) =
      StrongRender.buttons (parseNumbers (trim ['1'])) :=
  ⟨(c5_amended_thm [] 1 (by norm_num)).2.1,
   (c5_amended_thm [] 1 (by norm_num)).2.2.2 ['1'] (by decide)⟩

/-- Claim C7, counterexample.  The claim states that a click on a reference
whose chunk has `documentId = ""` fires no navigation event.  But the
extraction falls back to the chunk's `id` field (`chunk.documentId ||
chunk.id || ''`): for a chunk with `documentId = ""`, `id = "doc-1"` and
`chunkId = "chunk-1"`, the click DOES fire a navigation event (carrying
`documentId = "doc-1"`). -/
theorem c7_counterexample :
    refEmptyDoc.documentId = "" ∧
    handleReferenceClick (some [refEmptyDoc]) 1 =
      some { documentId := "doc-1", chunkId := "chunk-1", title := "T", page := 3 } := by
  decide

/-- Claim C7, amended: a click on an in-range reference fires no navigation
event when both `documentId` and `chunkId` cannot be determined after the
field-name fallbacks; in particular a chunk whose `documentId` AND `id`
fields are both empty fires no event (a chunk whose `documentId` alone is
empty may still navigate via the `id` fallback). -/
theorem c7_amended_thm (R : List ChunkRef) (k : Nat) (c : ChunkRef)
    (hres : resolveReference R k = some c) :
    ((extractDocumentId c = "" ∧ extractChunkId c = "") →
      handleReferenceClick (some R) k = none) ∧
    ((c.documentId = "" ∧ c.id = "") → handleReferenceClick (some R) k = none) := by
  have hk : 1 ≤ k ∧ k - 1 < R.length := by
    by_contra h
    rw [resolveReference, dif_neg h] at hres
    exact Option.noConfusion hres
  have hclick : handleReferenceClick (some R) k = clickEventOf c := by
    show (if R.length > 0 then
        match resolveReference R k with
        | some c => clickEventOf c
        | none => none
      else none) = _
    rw [if_pos (by omega), hres]
  constructor
  · rintro ⟨hd, hc2⟩
    rw [hclick, clickEventOf, if_pos (Or.inl hd)]
  · rintro ⟨hd, hid⟩
    have hdoc : extractDocumentId c = "" := by
      rw [extractDocumentId, hd, hid]
      rfl
    rw [hclick, clickEventOf, if_pos (Or.inl hdoc)]

/-- Claim C7, witness for the amended theorem: a reference entry whose
fields are all empty is resolved by marker `1` but its click fires no
navigation event. -/
theorem c7_witness :
    handleReferenceClick (some [({} : ChunkRef)]) 1 = none :=
  (c7_amended_thm [({} : ChunkRef)] 1 ({} : ChunkRef) (by decide)).2 ⟨rfl, rfl⟩

/-! Claim theorems about the page-grouping estimator. -/

theorem mem_enum_self {β : Type _} (l : List β) (i : Nat) (hi : i < l.length) :
    (i, l.get ⟨i, hi⟩) ∈ l.enum := by
  have hlen : i < l.enum.length := by rw [List.enum_length]; exact hi
  have h := List.getElem_enum l i hlen
  rw [List.get_eq_getElem, ← h]
  exact List.getElem_mem hlen

/-- Claim C4: when every chunk's page is zero/absent, the chunk at 0-based
storage index `i` is assigned page
`min(totalPages, floor(i * totalPages / chunkCount) + 1)` when
`totalPages > 0` and page `floor(i / 3) + 1` otherwise, and lands in exactly
that bucket of `chunksByPage`. -/
theorem c4_thm (chunks : List PDFChunk) (dtp : Nat)
    (hz : ∀ c ∈ chunks, c.page = 0) (i : Nat) (hi : i < chunks.length) :
    assignedPage chunks dtp i (chunks.get ⟨i, hi⟩) =
      (if dtp > 0 then min dtp (i * dtp / chunks.length + 1) else i / 3 + 1) ∧
    chunks.get ⟨i, hi⟩ ∈ chunksByPage chunks dtp
      (if dtp > 0 then min dtp (i * dtp / chunks.length + 1) else i / 3 + 1) := by
  have haz : allPagesZero chunks = true := by
    rw [allPagesZero]
    simp only [Bool.and_eq_true, decide_eq_true_eq, List.all_eq_true]
    exact ⟨by omega, fun c hc => by simp [hz c hc]⟩
  have hassign : assignedPage chunks dtp i (chunks.get ⟨i, hi⟩) =
      (if dtp > 0 then min dtp (i * dtp / chunks.length + 1) else i / 3 + 1) := by
    rw [assignedPage, if_pos haz]
    by_cases hdtp : dtp > 0
    · rw [if_pos hdtp, if_pos hdtp, Nat.min_comm]
    · rw [if_neg hdtp, if_neg hdtp]
  refine ⟨hassign, ?_⟩
  rw [chunksByPage]
  apply List.mem_map.mpr
  refine ⟨(i, chunks.get ⟨i, hi⟩), ?_, rfl⟩
  apply List.mem_filter.mpr
  exact ⟨mem_enum_self chunks i hi, by simp only [beq_iff_eq]; exact hassign⟩

/-- Claim C4, witness: ten all-zero-page chunks with `totalPages = 5` put
chunk 9 on page `min(5, 9 * 5 / 10 + 1) = 5`, and the buckets of pages 1-5
hold 2 chunks each (chunks 0-1 on page 1, ..., 8-9 on page 5). -/
theorem c4_witness :
    (assignedPage chunks10 5 9 (chunks10.get ⟨9, by decide⟩) =
        (if 5 > 0 then min 5 (9 * 5 / chunks10.length + 1) else 9 / 3 + 1) ∧
      chunks10.get ⟨9, by decide⟩ ∈ chunksByPage chunks10 5
        (if 5 > 0 then min 5 (9 * 5 / chunks10.length + 1) else 9 / 3 + 1)) ∧
    (List.range 5).map (fun p => (chunksByPage chunks10 5 (p + 1)).length) =
      [2, 2, 2, 2, 2] :=
  ⟨c4_thm chunks10 5 (by decide) 9 (by decide), by decide⟩

theorem count_filter_eq {β : Type _} [DecidableEq β] (l : List β) (f : β → Nat)
    (p : Nat) (a : β) :
    List.count a (l.filter fun x => f x == p) =
      if f a = p then List.count a l else 0 := by
  by_cases h : f a = p
  · rw [if_pos h]
    exact List.count_filter (by simp [h])
  · rw [if_neg h]
    apply List.count_eq_zero_of_not_mem
    intro hmem
    have h2 := (List.mem_filter.mp hmem).2
    simp only [beq_iff_eq] at h2
    exact h h2

theorem sum_map_range_ite (B k v : Nat) (hk : k < B) :
    ((List.range B).map (fun p => if k = p then v else 0)).sum = v := by
  induction B with
  | zero => omega
  | succ n ih =>
    rw [List.range_succ, List.map_append, List.sum_append]
    by_cases h : k = n
    · subst h
      have h0 : ((List.range k).map (fun p => if k = p then v else 0)).sum = 0 := by
        apply List.sum_eq_zero
        intro x hx
        obtain ⟨p, hp, rfl⟩ := List.mem_map.mp hx
        rw [if_neg (by have := List.mem_range.mp hp; omega)]
      rw [h0]
      simp
    · rw [ih (by omega)]
      simp [h]

/-- Bucketing a list by a bounded Nat-valued key and concatenating the
buckets in key order is a permutation of the list. -/
theorem range_flatten_filter_perm {β : Type _} [DecidableEq β] (l : List β)
    (f : β → Nat) (B : Nat) (hB : ∀ x ∈ l, f x < B) :
    (((List.range B).map (fun p => l.filter fun x => f x == p)).flatten).Perm l := by
  rw [List.perm_iff_count]
  intro a
  rw [List.count_flatten, List.map_map]
  by_cases ha : a ∈ l
  · have heq : ((List.range B).map
        (List.count a ∘ fun p => l.filter fun x => f x == p))
        = (List.range B).map (fun p => if f a = p then List.count a l else 0) :=
      List.map_congr_left fun p _ => count_filter_eq l f p a
    rw [heq, sum_map_range_ite B (f a) (List.count a l) (hB a ha)]
  · rw [List.count_eq_zero_of_not_mem ha]
    apply List.sum_eq_zero
    intro x hx
    obtain ⟨p, hp, rfl⟩ := List.mem_map.mp hx
    simp only [Function.comp_apply]
    apply List.count_eq_zero_of_not_mem
    intro hmem
    exact ha (List.mem_filter.mp hmem).1

/-- Claim C10: `chunksByPage` partitions the chunk collection.  Every bucket
is a sublist of the collection (storage order preserved); every index lands
in exactly one bucket; and the concatenation of all buckets (in page order,
over any page range covering every assigned page) is a permutation of the
collection — each input chunk occurs in it exactly as often as in the
input. -/
theorem c10_thm (chunks : List PDFChunk) (dtp : Nat) :
    (∀ p, (chunksByPage chunks dtp p).Sublist chunks) ∧
    (∀ i, ∀ hi : i < chunks.length, ∃! p,
      (i, chunks.get ⟨i, hi⟩) ∈
        (chunks.enum).filter (fun ic => assignedPage chunks dtp ic.1 ic.2 == p)) ∧
    (∀ B, (∀ i c, (i, c) ∈ chunks.enum → assignedPage chunks dtp i c < B) →
      (((List.range B).map (fun p => chunksByPage chunks dtp p)).flatten).Perm
        chunks) := by
  refine ⟨?_, ?_, ?_⟩
  · intro p
    rw [chunksByPage]
    have h2 := (List.filter_sublist
      (p := fun ic => assignedPage chunks dtp ic.1 ic.2 == p) chunks.enum).map
      Prod.snd
    rwa [List.enum_map_snd] at h2
  · intro i hi
    refine ⟨assignedPage chunks dtp i (chunks.get ⟨i, hi⟩), ?_, ?_⟩
    · exact List.mem_filter.mpr ⟨mem_enum_self chunks i hi, by simp⟩
    · intro p hp
      have h2 := (List.mem_filter.mp hp).2
      simp only [beq_iff_eq] at h2
      exact h2.symm
  · intro B hB
    have hperm := (range_flatten_filter_perm chunks.enum
      (fun ic => assignedPage chunks dtp ic.1 ic.2) B
      (fun x hx => hB x.1 x.2 hx)).map Prod.snd
    rw [List.enum_map_snd, List.map_flatten, List.map_map] at hperm
    exact hperm

/-- Claim C10, witness: the 10-chunk collection with `totalPages = 5` is
partitioned — concatenating buckets 0-5 recovers all ten chunks. -/
theorem c10_witness :
    (((List.range 6).map (fun p => chunksByPage chunks10 5 p)).flatten).Perm
      chunks10 :=
  (c10_thm chunks10 5).2.2 6
    (fun i c hm =>
      (by decide : ∀ x ∈ chunks10.enum, assignedPage chunks10 5 x.1 x.2 < 6)
        (i, c) hm)

/-! Claim theorems about page navigation. -/

theorem find?_range'_eq_some (f : Nat → Bool) :
    ∀ (n a m : Nat), a ≤ m → m < a + n → f m = true →
      (∀ q, a ≤ q → q < m → f q = false) →
      (List.range' a n).find? f = some m := by
  intro n
  induction n with
  | zero => intro a m h1 h2 _ _; omega
  | succ k ih =>
    intro a m h1 h2 hm hlt
    rw [List.range'_succ]
    by_cases ha : a = m
    · subst ha
      rw [List.find?_cons_of_pos _ hm]
    · have haf : f a = false := hlt a (Nat.le_refl a) (by omega)
      rw [List.find?_cons_of_neg _ (by simp [haf])]
      exact ih (a + 1) m (by omega) (by omega) hm fun q hq1 hq2 => hlt q (by omega) hq2

theorem find?_range'_eq_none (f : Nat → Bool) (a n : Nat)
    (h : ∀ q, a ≤ q → q < a + n → f q = false) :
    (List.range' a n).find? f = none := by
  rw [List.find?_eq_none]
  intro x hx
  have hx2 := List.mem_range'_1.mp hx
  simp [h x hx2.1 hx2.2]

theorem find?_range'_reverse_eq_some (f : Nat → Bool) :
    ∀ (n m : Nat), 1 ≤ m → m ≤ n → f m = true →
      (∀ q, m < q → q ≤ n → f q = false) →
      ((List.range' 1 n).reverse).find? f = some m := by
  intro n
  induction n with
  | zero => intro m h1 h2 _ _; omega
  | succ k ih =>
    intro m h1 h2 hm hgt
    have hlast : 1 + 1 * k = k + 1 := by omega
    rw [List.range'_concat, List.reverse_append, List.reverse_singleton,
      List.singleton_append, hlast]
    by_cases hk : m = k + 1
    · subst hk
      rw [List.find?_cons_of_pos _ hm]
    · have hf : f (k + 1) = false := hgt (k + 1) (by omega) (Nat.le_refl _)
      rw [List.find?_cons_of_neg _ (by simp [hf])]
      exact ih m h1 (by omega) hm fun q hq1 hq2 => hgt q hq1 (by omega)

theorem find?_range'_reverse_eq_none (f : Nat → Bool) (n : Nat)
    (h : ∀ q, 1 ≤ q → q ≤ n → f q = false) :
    ((List.range' 1 n).reverse).find? f = none := by
  rw [List.find?_eq_none]
  intro x hx
  rw [List.mem_reverse] at hx
  have hx2 := List.mem_range'_1.mp hx
  simp [h x hx2.1 (by omega)]

/-- Claim C8, counterexample.  The claim states that when no page in the
travel direction owns a chunk, the navigation is a no-op (no page-change
event).  With a single chunk on page 1, `totalPages = 3` and
`currentPage = 1`, pages 2 and 3 own no chunks, yet `handleNextPage` fires a
page-change event to the chunkless page 2 (the `findNearestPageWithChunks`
fallback returns the requested page, which differs from the current page). -/
theorem c8_counterexample :
    totalPagesOf [navChunk1] 3 = 3 ∧
    ((List.range' 2 2).all fun p => (chunksByPage [navChunk1] 3 p).isEmpty) = true ∧
    handleNextPage [navChunk1] 3 1 = some 2 := by
  decide

/-- Claim C8, amended: if the requested adjacent page owns no chunks,
next/prev navigation fires a page-change event to the nearest page in the
travel direction that owns at least one chunk; if no page in that direction
owns one, the navigation is NOT a no-op: it fires a page-change event to the
requested page itself (`current + 1` clamped to `totalPages` for next,
`current - 1` clamped to `1` for prev) — it is a no-op only at the boundary,
where the clamped requested page equals the current page. -/
theorem c8_amended_thm (chunks : List PDFChunk) (dtp cur : Nat)
    (h1 : 1 ≤ cur) (h2 : cur ≤ totalPagesOf chunks dtp) :
    (∀ m, chunksByPage chunks dtp (min (totalPagesOf chunks dtp) (cur + 1)) = [] →
      min (totalPagesOf chunks dtp) (cur + 1) < m → m ≤ totalPagesOf chunks dtp →
      chunksByPage chunks dtp m ≠ [] →
      (∀ q, min (totalPagesOf chunks dtp) (cur + 1) < q → q < m →
        chunksByPage chunks dtp q = []) →
      handleNextPage chunks dtp cur = some m) ∧
    ((∀ q, min (totalPagesOf chunks dtp) (cur + 1) ≤ q →
        q ≤ totalPagesOf chunks dtp → chunksByPage chunks dtp q = []) →
      handleNextPage chunks dtp cur =
        if cur < totalPagesOf chunks dtp then some (cur + 1) else none) ∧
    (∀ m, chunksByPage chunks dtp (max 1 (cur - 1)) = [] →
      1 ≤ m → m < max 1 (cur - 1) →
      chunksByPage chunks dtp m ≠ [] →
      (∀ q, m < q → q < max 1 (cur - 1) → chunksByPage chunks dtp q = []) →
      handlePreviousPage chunks dtp cur = some m) ∧
    ((∀ q, 1 ≤ q → q ≤ max 1 (cur - 1) → chunksByPage chunks dtp q = []) →
      handlePreviousPage chunks dtp cur =
        if 1 < cur then some (cur - 1) else none) := by
  set total := totalPagesOf chunks dtp with htotal
  refine ⟨?_, ?_, ?_, ?_⟩
  · -- next, a later page owns chunks: event to the nearest such page
    intro m hreqE hm1 hm2 hmNE hbot
    have hfind : findNearestPageWithChunks chunks dtp (min total (cur + 1))
        NavDirection.next = m := by
      rw [findNearestPageWithChunks, if_neg (by rw [hreqE]; simp),
        find?_range'_eq_some _ (total - min total (cur + 1))
          (min total (cur + 1) + 1) m (by omega) (by omega)
          (by simp [List.length_pos.mpr hmNE])
          (fun q hq1 hq2 => by simp [hbot q (by omega) hq2])]
    show (if findNearestPageWithChunks chunks dtp (min total (cur + 1))
        NavDirection.next = cur then none
      else some (findNearestPageWithChunks chunks dtp (min total (cur + 1))
        NavDirection.next)) = some m
    rw [hfind, if_neg (by omega)]
  · -- next, no later page owns chunks: event to the requested page
    intro hall
    have hreqE : chunksByPage chunks dtp (min total (cur + 1)) = [] :=
      hall _ (Nat.le_refl _) (Nat.min_le_left _ _)
    have hfind : findNearestPageWithChunks chunks dtp (min total (cur + 1))
        NavDirection.next = min total (cur + 1) := by
      rw [findNearestPageWithChunks, if_neg (by rw [hreqE]; simp),
        find?_range'_eq_none _ _ _
          (fun q hq1 hq2 => by simp [hall q (by omega) (by omega)])]
    show (if findNearestPageWithChunks chunks dtp (min total (cur + 1))
        NavDirection.next = cur then none
      else some (findNearestPageWithChunks chunks dtp (min total (cur + 1))
        NavDirection.next)) = _
    rw [hfind]
    by_cases hc : cur < total
    · rw [if_neg (by omega), if_pos hc]
      congr 1
      omega
    · rw [if_pos (by omega), if_neg hc]
  · -- prev, an earlier page owns chunks: event to the nearest such page
    intro m hreqE hm1 hm2 hmNE hbot
    have hfind : findNearestPageWithChunks chunks dtp (max 1 (cur - 1))
        NavDirection.prev = m := by
      rw [findNearestPageWithChunks, if_neg (by rw [hreqE]; simp),
        find?_range'_reverse_eq_some _ (max 1 (cur - 1) - 1) m hm1 (by omega)
          (by simp [List.length_pos.mpr hmNE])
          (fun q hq1 hq2 => by simp [hbot q hq1 (by omega)])]
    show (if findNearestPageWithChunks chunks dtp (max 1 (cur - 1))
        NavDirection.prev = cur then none
      else some (findNearestPageWithChunks chunks dtp (max 1 (cur - 1))
        NavDirection.prev)) = some m
    rw [hfind, if_neg (by omega)]
  · -- prev, no earlier page owns chunks: event to the requested page
    intro hall
    have hreqE : chunksByPage chunks dtp (max 1 (cur - 1)) = [] :=
      hall _ (Nat.le_max_left _ _) (Nat.le_refl _)
    have hfind : findNearestPageWithChunks chunks dtp (max 1 (cur - 1))
        NavDirection.prev = max 1 (cur - 1) := by
      rw [findNearestPageWithChunks, if_neg (by rw [hreqE]; simp),
        find?_range'_reverse_eq_none _ _
          (fun q hq1 hq2 => by simp [hall q hq1 (by omega)])]
    show (if findNearestPageWithChunks chunks dtp (max 1 (cur - 1))
        NavDirection.prev = cur then none
      else some (findNearestPageWithChunks chunks dtp (max 1 (cur - 1))
        NavDirection.prev)) = _
    rw [hfind]
    by_cases hc : 1 < cur
    · rw [if_neg (by omega), if_pos hc]
      congr 1
      omega
    · rw [if_pos (by omega), if_neg hc]

/-- Claim C8, witness for the amended theorem: one chunk on page 1,
`totalPages = 3`, `currentPage = 1`; no page ≥ 2 owns chunks, and the
navigation fires a page change to page `1 + 1`. -/
theorem c8_witness :
    handleNextPage [navChunk1] 3 1 =
      if 1 < totalPagesOf [navChunk1] 3 then some (1 + 1) else none :=
  (c8_amended_thm [navChunk1] 3 1 (by decide) (by decide)).2.1
    (fun q hq1 hq2 => by
      have : q = 2 ∨ q = 3 := by
        have h3 : totalPagesOf [navChunk1] 3 = 3 := by decide
        rw [h3] at hq2
        have h2 : min (totalPagesOf [navChunk1] 3) (1 + 1) = 2 := by decide
        rw [h2] at hq1
        omega
      rcases this with rfl | rfl
      · decide
      · decide)

end Chat6v
